import Mathlib

/-!
Shallow embedding of `src/fqcn-fixer.py` (ansible-fqcn-converter).

Lines are modelled as `List Char`.  The two regexes of the script,

  `_fqcnregex = re.compile(r'^(?P<white>\s*-?\s+)(?P<module>%s):' % '|'.join(fqcndict.keys()))`
  `fqcnregex  = re.compile('^%s(?P<module>%s):' % (startingwhitespaces, '|'.join(fqcndict.keys())))`

are embedded by explicit backtracking:
  * `wsCandidates` enumerates the splits of `\s*-?\s+` in the engine's
    backtracking preference order (greedy `\s*`, dash preferred, greedy `\s+`);
  * the alternation `(k1|k2|...)` tries keys in dict-iteration order; the keys
    are interpolated into the pattern UNESCAPED, so a `.` inside a key matches
    any single character (`dotMatch`); the group captures the matched text.
The dict access `fqcndict[fqcnmodule]` on the captured text is fallible
(KeyError); a line step therefore returns `Option`, `none` modelling the
uncaught exception aborting the run.
-/

namespace FqcnFixer

/-- Python `\s` on the ASCII range: the characters matched by `re` in the
whitespace class (space, tab, newline, carriage return, vertical tab, form feed). -/
def isPySpace (c : Char) : Bool :=
  c == ' ' || c == '\t' || c == '\n' || c == '\r' || c == '\x0b' || c == '\x0c'

/-- Matching of an unescaped key against a text of the same length: every
pattern character matches itself, and `.` matches any single character
(the keys are interpolated into the regex without `re.escape`). -/
def dotMatch : List Char → List Char → Bool
  | [], [] => true
  | p :: ps, c :: cs => (p == '.' || p == c) && dotMatch ps cs
  | _, _ => false

/-- The splits produced by a greedy `\s+` applied to `rest` (longest first),
each returned as `(pre ++ consumed, remainder)`. -/
def plusSplits (pre rest : List Char) : List (List Char × List Char) :=
  (List.range (rest.takeWhile isPySpace).length).map
    (fun a => (pre ++ rest.take ((rest.takeWhile isPySpace).length - a),
               rest.drop ((rest.takeWhile isPySpace).length - a)))

/-- All the ways `\s*-?\s+` can match a prefix of `line`, in the regex
engine's backtracking order: `\s*` longest first, then the optional dash
taken before skipped, then `\s+` longest first. -/
def wsCandidates (line : List Char) : List (List Char × List Char) :=
  (List.range ((line.takeWhile isPySpace).length + 1)).flatMap (fun a =>
    if (line.drop ((line.takeWhile isPySpace).length - a)).head? = some '-' then
      plusSplits (line.take ((line.takeWhile isPySpace).length - a) ++ [ '-' ])
          (line.drop ((line.takeWhile isPySpace).length - a)).tail ++
        plusSplits (line.take ((line.takeWhile isPySpace).length - a))
          (line.drop ((line.takeWhile isPySpace).length - a))
    else
      plusSplits (line.take ((line.takeWhile isPySpace).length - a))
        (line.drop ((line.takeWhile isPySpace).length - a)))

/-- The alternation `(?P<module>k1|k2|...)` followed by a literal `:`:
keys are tried in order, dots in a key match any character, and on success
the captured TEXT (not the key) and the remainder after the colon are
returned. -/
def tryKeys (keys : List String) (rest : List Char) : Option (List Char × List Char) :=
  keys.findSome? (fun k =>
    if dotMatch k.data (rest.take k.data.length) = true ∧
        (rest.drop k.data.length).head? = some ':' then
      some (rest.take k.data.length, rest.drop (k.data.length + 1))
    else none)

/-- `_fqcnregex.match(line)` (the unlocked pattern `^(\s*-?\s+)(keys):`):
the first whitespace split, in backtracking order, after which some key
matches; returns (captured white group, captured module text, remainder). -/
def unlockedMatch (keys : List String) (line : List Char) :
    Option (List Char × List Char × List Char) :=
  (wsCandidates line).findSome? (fun c =>
    (tryKeys keys c.2).map (fun m => (c.1, m.1, m.2)))

/-- `fqcnregex.match(line)` in the locked state (`^<startingwhitespaces>(keys):`):
the captured prefix consists of whitespace and `-`, all literal in the regex,
so the line must start with that exact text. -/
def lockedMatch (p : List Char) (keys : List String) (line : List Char) :
    Option (List Char × List Char) :=
  if p.isPrefixOf line then tryKeys keys (line.drop p.length) else none

/-- `fqcndict`: a Python dict of str keys and values, as an association list
in insertion order (Python dicts preserve insertion order). -/
abbrev FqcnDict := List (String × String)

def dictKeys (d : FqcnDict) : List String := d.map (fun e => e.1)

def dictValues (d : FqcnDict) : List String := d.map (fun e => e.2)

/-- `d[k]` as a total lookup: `none` models a KeyError. -/
def pyLookup (d : FqcnDict) (k : String) : Option String :=
  (d.find? (fun e => e.1 == k)).map (fun e => e.2)

/-- `d[k] = v`: update in place when the key exists, else append. -/
def dictSet (d : FqcnDict) (k v : String) : FqcnDict :=
  if d.any (fun e => e.1 == k) then
    d.map (fun e => if e.1 == k then (k, v) else e)
  else d ++ [(k, v)]

/-- Lines 176-177: `for fqcn in copy.copy(fqcndict).values(): fqcndict[fqcn] = fqcn` —
the self-mapping post-processing applied to the map after either build path. -/
def addSelfMaps (d : FqcnDict) : FqcnDict :=
  (dictValues d).foldl (fun acc v => dictSet acc v v) d

/-- Lines 226-233: matching a line against the current per-file pattern.
State `none` is the unlocked state (`startingwhitespaces = False`,
`fqcnregex = _fqcnregex`); `some p` is the locked state with captured
prefix `p`.  Returns (white prefix, captured module text, rest after colon). -/
def matchOf (d : FqcnDict) (st : Option (List Char)) (line : List Char) :
    Option (List Char × List Char × List Char) :=
  match st with
  | none => unlockedMatch (dictKeys d) line
  | some p => (lockedMatch p (dictKeys d) line).map (fun m => (p, m.1, m.2))

/-- Lines 226-245, one iteration of the per-line loop: on a match, lock the
captured prefix (if unlocked), look the captured text up in the dict
(KeyError → `none`), rewrite the line to prefix ++ value ++ ':' ++ rest
(the effect of the anchored `re.sub` on the matched line), and report `'.'`
when the matched text already equals its value, `'*'` otherwise; on no
match the line passes through with symbol `'.'`. -/
def lineStep (d : FqcnDict) (st : Option (List Char)) (line : List Char) :
    Option (List Char × Option (List Char) × Char) :=
  match matchOf d st line with
  | none => some (line, st, '.')
  | some (w, t, r) =>
    match pyLookup d (String.mk t) with
    | none => none
    | some v => some (w ++ v.data ++ ':' :: r, some w, if t = v.data then '.' else '*')

/-- The per-file loop over lines, threading the lock state; returns the
rewritten lines, the per-line progress symbols and the final state, or
`none` when a KeyError aborts the run. -/
def foldLines (d : FqcnDict) :
    Option (List Char) → List (List Char) →
      Option (List (List Char) × List Char × Option (List Char))
  | st, [] => some ([], [], st)
  | st, line :: rest =>
    match lineStep d st line with
    | none => none
    | some (nl, st2, sym) =>
      match foldLines d st2 rest with
      | none => none
      | some (ls, syms, stf) => some (nl :: ls, sym :: syms, stf)

/-- Lines 214-250: each file starts afresh in the unlocked state
(`startingwhitespaces = False` is re-assigned inside the per-file loop body). -/
def runFile (d : FqcnDict) (lines : List (List Char)) :
    Option (List (List Char) × List Char × Option (List Char)) :=
  foldLines d none lines

/-- The whole per-file loop: every file is processed independently with a
fresh unlocked state. -/
def processFiles (d : FqcnDict) (files : List (List (List Char))) :
    List (Option (List (List Char) × List Char × Option (List Char))) :=
  files.map (fun f => runFile d f)

/-- Spec-side observation: a key usable as a module token — nonempty,
not starting with whitespace, `-` or `.`, and containing no `:`. -/
def goodKeyB (k : String) : Bool :=
  match k.data with
  | [] => false
  | c :: _ => !(isPySpace c) && !(c == '-') && !(c == '.') && !(k.data.contains ':')

/-- Spec-side observation: key `k`'s unescaped pattern can extend a value
`v` across the following colon — `k` is longer than `v`, its first
`v.length` pattern characters match `v`, and it has a wildcard `.` exactly
where the rewritten line has its colon. -/
def crossColonB (k v : String) : Bool :=
  decide (v.data.length < k.data.length) &&
  dotMatch (k.data.take v.data.length) v.data &&
  ((k.data.drop v.data.length).head? == some '.')

/-- Lines 141-159, the body of the generation loop for one module:
skip when the detail query returned a non-zero status, when the parsed
JSON is empty or lacks the module name, or when the `doc` object lacks
`collection` or `module`; otherwise add `map[last segment of fqcn] = fqcn`. -/
structure ModDetail where
  returncode : Nat
  present : Bool
  doc : Option (Option String × Option String)
deriving DecidableEq

/-- `fqcn.split('.')[-1]`. -/
def lastSegment (s : String) : String := (s.splitOn ".").getLastD ""

def genStep (d : FqcnDict) (r : ModDetail) : FqcnDict :=
  if r.returncode > 0 then d
  else if r.present = false then d
  else
    match r.doc with
    | some (some coll, some m) =>
      let fqcn := coll ++ "." ++ m
      dictSet d (lastSegment fqcn) fqcn
    | _ => d

/-- Spec-side observation: the detail response carries both
`documentation.collection` and `documentation.module`. -/
def docComplete : Option (Option String × Option String) → Bool
  | some (some _, some _) => true
  | _ => false

/-- Lines 140-159: the generation loop over the listing's module names,
starting from whatever the cache load put into `fqcndict`. -/
def generateMap (d0 : FqcnDict) (details : List ModDetail) : FqcnDict :=
  details.foldl genStep d0

/-- Lines 123-177: build the map.  `cache = none` models
FileNotFoundError on the map file (`fqcnmapfile = False`).  Generation
runs when the cache is missing or `--update-fqcn-map-file` was given;
`subprocess.run(['ansible-doc','-lj'], check=True)` raises
CalledProcessError on a non-zero status (`Except.error`), aborting the
run.  The self-mapping post-processing is applied on every path. -/
def buildFqcnDict (cache : Option FqcnDict) (update : Bool) (listingRc : Nat)
    (details : List ModDetail) : Except Unit FqcnDict :=
  let d0 := cache.getD []
  if cache.isNone || update then
    if listingRc = 0 then Except.ok (addSelfMaps (generateMap d0 details))
    else Except.error ()
  else Except.ok (addSelfMaps d0)

/-- The run as a whole: files are only reached when the map build
succeeded; a fatal listing failure propagates as the error. -/
def runAll (cache : Option FqcnDict) (update : Bool) (listingRc : Nat)
    (details : List ModDetail) (files : List (List (List Char))) :
    Except Unit (List (Option (List (List Char) × List Char × Option (List Char)))) :=
  match buildFqcnDict cache update listingRc details with
  | Except.error e => Except.error e
  | Except.ok d => Except.ok (processFiles d files)

/-- `name.lower()` over the code points. -/
def strToLower (s : String) : String := String.mk (s.data.map Char.toLower)

/-- `s.endswith(t)` as a suffix test on the code points. -/
def strEndsWith (s t : String) : Bool := t.data.isSuffixOf s.data

/-- Lines 22-37, `isexcluded(path, _exclude_paths)`.  `A` stands for
`os.path.abspath`, `pm` for `pathlib.PurePath(path).match`, `fm` for
`fnmatch.fnmatch`; `path.startswith` is a string-prefix test (the local
`path` has already been made absolute, `ppath` keeps the original text). -/
def isexcluded (A : String → String) (pm fm : String → String → Bool)
    (path : String) (eps : List String) : Bool :=
  eps.any (fun ep =>
    ep.data.isPrefixOf (A path).data ||
    (A ep).data.isPrefixOf (A path).data ||
    pm path ep || fm (A path) ep || fm path ep)

/-- Lines 42-55, `_general_exclude_paths`. -/
def generalExcludePaths : List String :=
  [".cache", ".git", ".hg", ".svn", ".tox", ".collections",
   "*/.github/*", "*/molecule/*", "*/group_vars/*", "*/host_vars/*",
   "*/vars/*", "*/defaults/*"]

/-- Lines 180-183: the user excludes, the general excludes, and then —
unconditionally — the fqcn map-file path itself. -/
def buildExcludePaths (argsExclude : List String) (fqcnmapfile : String) : List String :=
  (argsExclude ++ generalExcludePaths) ++ [fqcnmapfile]

/-- Lines 202-208, the inner extension loop for one directory entry:
on an extension hit the candidate is tested against the excludes —
excluded breaks out of the extension loop, otherwise the path is appended
(and, the loop not breaking, may be appended once per further matching
extension). -/
def extsSelect (A : String → String) (pm fm : String → String → Bool)
    (eps : List String) (f : String) (name : String) : List String → List String
  | [] => []
  | ext :: rest =>
    if strEndsWith (strToLower name) (strToLower ext) then
      if isexcluded A pm fm f eps then []
      else f :: extsSelect A pm fm eps f name rest
    else extsSelect A pm fm eps f name rest

/-- Lines 198-208, `parsefiles`: walk entries are (dirpath, file names);
an excluded dirpath is skipped whole, otherwise each name runs the
extension loop on `os.path.join(dirpath, name)` (the join is the
parameter `J`). -/
def parsefiles (A : String → String) (pm fm : String → String → Bool)
    (J : String → String → String) (walk : List (String × List String))
    (eps exts : List String) : List String :=
  walk.flatMap (fun de =>
    if isexcluded A pm fm de.1 eps then []
    else de.2.flatMap (fun name => extsSelect A pm fm eps (J de.1 name) name exts))

/-- Lines 186-195, the optional-config step.  `config = False` (line 186)
initializes the variable `config`; the name `_config` is bound only when a
config path was given AND the file opened (line 190).  The later test
`if _config and 'exclude_paths' in _config.keys()` (line 193) therefore
raises NameError — modelled as `Except.error` — whenever `args.config`
was absent or the file was missing.  `argsConfig`: `none` = no `-c` flag;
`some none` = flag given, FileNotFoundError; `some (some doc)` = loaded,
where `doc = none` models a YAML `None` (falsy) and `some entries` a
mapping of keys to string lists. -/
def configStep (A : String → String)
    (argsConfig : Option (Option (Option (List (String × List String)))))
    (excl : List String) : Except Unit (List String) :=
  match argsConfig with
  | some (some doc) =>
    Except.ok
      (match doc with
       | none => excl
       | some entries =>
         if entries.isEmpty then excl
         else
           match entries.find? (fun e => e.1 == "exclude_paths") with
           | some e => excl ++ e.2.map A
           | none => excl)
  | _ => Except.error ()

/-! ### Generic list helpers -/

theorem isPrefixOf_iff_append :
    ∀ (a b : List Char), a.isPrefixOf b = true ↔ ∃ s, b = a ++ s
  | [], b => by simp [List.isPrefixOf]
  | a :: as, [] => by simp [List.isPrefixOf]
  | a :: as, b :: bs => by
    simp only [List.isPrefixOf, Bool.and_eq_true, beq_iff_eq]
    constructor
    · rintro ⟨rfl, h⟩
      rcases (isPrefixOf_iff_append as bs).mp h with ⟨s, rfl⟩
      exact ⟨s, rfl⟩
    · rintro ⟨s, hs⟩
      rw [List.cons_append] at hs
      injection hs with h1 h2
      exact ⟨h1.symm, (isPrefixOf_iff_append as bs).mpr ⟨s, h2⟩⟩

theorem append_eq_split :
    ∀ (w c s z : List Char), c ++ s = w ++ z → w.length ≤ c.length →
      ∃ m, c = w ++ m ∧ z = m ++ s
  | [], c, s, z, h, _ => ⟨c, rfl, h.symm⟩
  | a :: w', c, s, z, h, hl => by
    cases c with
    | nil => simp at hl
    | cons b c' =>
      simp only [List.cons_append] at h
      injection h with h1 h2
      rcases append_eq_split w' c' s z h2 (by simpa using hl) with ⟨m, hm1, hm2⟩
      exact ⟨m, by rw [hm1, h1, List.cons_append], hm2⟩

theorem dotMatch_length : ∀ (p c : List Char), dotMatch p c = true → p.length = c.length
  | [], [], _ => rfl
  | [], _ :: _, h => by simp [dotMatch] at h
  | _ :: _, [], h => by simp [dotMatch] at h
  | p :: ps, c :: cs, h => by
    simp only [dotMatch, Bool.and_eq_true] at h
    simp [dotMatch_length ps cs h.2]

theorem dotMatch_refl : ∀ (l : List Char), dotMatch l l = true
  | [] => rfl
  | c :: cs => by simp [dotMatch, dotMatch_refl cs]

theorem dotMatch_append_split :
    ∀ (a k b : List Char), dotMatch k (a ++ b) = true →
      dotMatch (k.take a.length) a = true ∧ dotMatch (k.drop a.length) b = true
  | [], k, b, h => by simpa [dotMatch] using h
  | c :: a', k, b, h => by
    cases k with
    | nil => simp [dotMatch] at h
    | cons p k' =>
      simp only [List.cons_append, dotMatch, Bool.and_eq_true] at h
      rcases dotMatch_append_split a' k' b h.2 with ⟨h1, h2⟩
      refine ⟨?_, h2⟩
      simp [List.take_succ_cons, dotMatch, h.1, h1]

theorem findSome?_det {α β : Type} (l : List α) (f : α → Option β) (b : β)
    (hall : ∀ a ∈ l, f a = none ∨ f a = some b) (hex : ∃ a ∈ l, f a ≠ none) :
    l.findSome? f = some b := by
  induction l with
  | nil => exact absurd hex (by simp)
  | cons x xs ih =>
    cases hfx : f x with
    | none =>
      have hex' : ∃ a ∈ xs, f a ≠ none := by
        rcases hex with ⟨a, ha, hne⟩
        rcases List.mem_cons.mp ha with rfl | ha'
        · exact absurd hfx hne
        · exact ⟨a, ha', hne⟩
      have := ih (fun a ha => hall a (List.mem_cons_of_mem _ ha)) hex'
      simpa [List.findSome?_cons, hfx] using this
    | some y =>
      rcases hall x (by simp) with h | h
      · rw [hfx] at h; cases h
      · rw [hfx] at h
        injection h with hy
        subst hy
        simp [List.findSome?_cons, hfx]

theorem takeWhile_app_stop (p : Char → Bool) (t : List Char)
    (ht : ∀ c, t.head? = some c → p c = false) :
    ∀ u : List Char, (u ++ t).takeWhile p = u.takeWhile p
  | [] => by
    cases t with
    | nil => rfl
    | cons c cs => simp [List.takeWhile_cons, ht c rfl]
  | x :: u' => by
    cases hx : p x with
    | true => simp [List.takeWhile_cons, hx, takeWhile_app_stop p t ht u']
    | false => simp [List.takeWhile_cons, hx]

theorem takeWhile_len_le (p : Char → Bool) :
    ∀ l : List Char, (l.takeWhile p).length ≤ l.length
  | [] => Nat.le_refl _
  | x :: xs => by
    cases hx : p x with
    | true =>
      simp only [List.takeWhile_cons, hx, if_true, List.length_cons]
      exact Nat.succ_le_succ (takeWhile_len_le p xs)
    | false => simp [List.takeWhile_cons, hx]

theorem mem_take_takeWhile (p : Char → Bool) :
    ∀ (l : List Char) (n : Nat), n ≤ (l.takeWhile p).length →
      ∀ c ∈ l.take n, p c = true
  | [], n, _, c, hc => by simp at hc
  | x :: xs, n, hn, c, hc => by
    cases hx : p x with
    | false =>
      rw [List.takeWhile_cons, hx] at hn
      simp at hn
      subst hn
      simp at hc
    | true =>
      rw [List.takeWhile_cons, hx] at hn
      cases n with
      | zero => simp at hc
      | succ m =>
        simp only [List.take_succ_cons, List.mem_cons] at hc
        rcases hc with rfl | hc'
        · exact hx
        · exact mem_take_takeWhile p xs m (by simpa using hn) c hc'

theorem mem_plusSplits {pre rest x y : List Char} :
    (x, y) ∈ plusSplits pre rest ↔
      ∃ j, 1 ≤ j ∧ j ≤ (rest.takeWhile isPySpace).length ∧
        x = pre ++ rest.take j ∧ y = rest.drop j := by
  unfold plusSplits
  simp only [List.mem_map, List.mem_range, Prod.mk.injEq]
  constructor
  · rintro ⟨a, ha, h1, h2⟩
    exact ⟨(rest.takeWhile isPySpace).length - a, by omega, by omega, h1.symm, h2.symm⟩
  · rintro ⟨j, hj1, hj2, rfl, rfl⟩
    refine ⟨(rest.takeWhile isPySpace).length - j, by omega, ?_, ?_⟩ <;>
      rw [Nat.sub_sub_self hj2]

/-! ### Facts about well-formed keys -/

theorem goodKey_head {k : String} (h : goodKeyB k = true) :
    ∃ c cs, k.data = c :: cs ∧ isPySpace c = false ∧ c ≠ '-' ∧ c ≠ '.' := by
  unfold goodKeyB at h
  cases hkd : k.data with
  | nil => rw [hkd] at h; cases h
  | cons c cs =>
    rw [hkd] at h
    simp only [Bool.and_eq_true, Bool.not_eq_true'] at h
    refine ⟨c, cs, rfl, h.1.1.1, ?_, ?_⟩
    · simpa using h.1.1.2
    · simpa using h.1.2

theorem goodKey_no_colon {k : String} (h : goodKeyB k = true) : ':' ∉ k.data := by
  unfold goodKeyB at h
  cases hkd : k.data with
  | nil => rw [hkd] at h; cases h
  | cons c cs =>
    rw [hkd] at h
    simp only [Bool.and_eq_true, Bool.not_eq_true'] at h
    have h2 := h.2
    simp [List.contains_iff_exists_mem_beq] at h2
    intro hmem
    rcases List.mem_cons.mp hmem with h3 | h3
    · exact h2.1 h3
    · exact h2.2 h3

/-! ### Decomposition of the whitespace candidates -/

theorem wsCandidates_split {line c s : List Char} (h : (c, s) ∈ wsCandidates line) :
    line = c ++ s ∧ ∀ ch ∈ c, isPySpace ch = true ∨ ch = '-' := by
  unfold wsCandidates at h
  rcases List.mem_flatMap.mp h with ⟨a, _, hmem⟩
  by_cases hd : (line.drop ((line.takeWhile isPySpace).length - a)).head? = some '-'
  · rw [if_pos hd] at hmem
    rcases List.mem_append.mp hmem with hmem1 | hmem2
    · rcases mem_plusSplits.mp hmem1 with ⟨j, hj1, hj2, rfl, rfl⟩
      cases hrest : line.drop ((line.takeWhile isPySpace).length - a) with
      | nil => rw [hrest] at hd; cases hd
      | cons h0 t0 =>
        rw [hrest] at hd
        simp only [List.head?_cons, Option.some.injEq] at hd
        subst hd
        rw [hrest] at hj2
        simp only [List.tail_cons] at hj2
        constructor
        · conv_lhs => rw [← List.take_append_drop ((line.takeWhile isPySpace).length - a) line,
            hrest]
          simp [List.take_append_drop]
        · intro ch hch
          simp only [List.tail_cons, List.mem_append, List.mem_singleton] at hch
          rcases hch with (hch | hch) | hch
          · exact Or.inl (mem_take_takeWhile isPySpace line _ (Nat.sub_le _ _) ch hch)
          · exact Or.inr hch
          · exact Or.inl (mem_take_takeWhile isPySpace t0 j hj2 ch hch)
    · exfalso
      rcases mem_plusSplits.mp hmem2 with ⟨j, hj1, hj2, -, -⟩
      cases hrest : line.drop ((line.takeWhile isPySpace).length - a) with
      | nil => rw [hrest] at hd; cases hd
      | cons h0 t0 =>
        rw [hrest] at hd hj2
        simp only [List.head?_cons, Option.some.injEq] at hd
        subst hd
        rw [List.takeWhile_cons, show isPySpace '-' = false from rfl] at hj2
        simp at hj2
        omega
  · rw [if_neg hd] at hmem
    rcases mem_plusSplits.mp hmem with ⟨j, hj1, hj2, rfl, rfl⟩
    constructor
    · conv_lhs => rw [← List.take_append_drop ((line.takeWhile isPySpace).length - a) line,
        ← List.take_append_drop j (line.drop ((line.takeWhile isPySpace).length - a))]
      simp [List.append_assoc]
    · intro ch hch
      rcases List.mem_append.mp hch with hch | hch
      · exact Or.inl (mem_take_takeWhile isPySpace line _ (Nat.sub_le _ _) ch hch)
      · exact Or.inl (mem_take_takeWhile isPySpace _ j hj2 ch hch)

/-! ### Behaviour of the key alternation -/

theorem tryKeys_some {keys : List String} {rest t r : List Char}
    (h : tryKeys keys rest = some (t, r)) :
    rest = t ++ ':' :: r ∧ ∃ k ∈ keys, dotMatch k.data t = true := by
  unfold tryKeys at h
  rcases List.exists_of_findSome?_eq_some h with ⟨k, hk, hfk⟩
  by_cases hc : dotMatch k.data (rest.take k.data.length) = true ∧
      (rest.drop k.data.length).head? = some ':'
  · rw [if_pos hc] at hfk
    simp only [Option.some.injEq, Prod.mk.injEq] at hfk
    obtain ⟨ht, hr⟩ := hfk
    subst ht hr
    refine ⟨?_, ⟨k, hk, hc.1⟩⟩
    cases hdrop : rest.drop k.data.length with
    | nil =>
      rw [hdrop] at hc
      exact absurd hc.2 (by simp)
    | cons c0 t0 =>
      have hc2 := hc.2
      rw [hdrop] at hc2
      have hc0 : c0 = ':' := by simpa using hc2
      subst hc0
      have ht0 : rest.drop (k.data.length + 1) = t0 := by
        rw [← List.tail_drop, hdrop]
        rfl
      rw [ht0]
      conv_lhs => rw [← List.take_append_drop k.data.length rest, hdrop]
  · rw [if_neg hc] at hfk
    cases hfk

theorem tryKeys_bad_head {keys : List String} (hkeys : ∀ k ∈ keys, goodKeyB k = true)
    {h0 : Char} (hh : isPySpace h0 = true ∨ h0 = '-') (rest : List Char) :
    tryKeys keys (h0 :: rest) = none := by
  unfold tryKeys
  rw [List.findSome?_eq_none_iff]
  intro k hk
  rcases goodKey_head (hkeys k hk) with ⟨c, cs, hkd, hsp, hdash, hdot⟩
  have hcond : ¬(dotMatch k.data ((h0 :: rest).take k.data.length) = true ∧
      ((h0 :: rest).drop k.data.length).head? = some ':') := by
    rintro ⟨h1, -⟩
    rw [hkd] at h1
    simp only [List.length_cons, List.take_succ_cons, dotMatch, Bool.and_eq_true,
      Bool.or_eq_true, beq_iff_eq] at h1
    rcases h1.1 with h2 | h2
    · exact hdot h2
    · subst h2
      rcases hh with h3 | h3
      · rw [hsp] at h3; cases h3
      · exact hdash h3
  rw [if_neg hcond]

theorem tryKeys_value {keys : List String} {v : String} (r : List Char)
    (hkeys : ∀ k ∈ keys, goodKeyB k = true) (hv : v ∈ keys)
    (hcr : ∀ k ∈ keys, crossColonB k v = false) :
    tryKeys keys (v.data ++ ':' :: r) = some (v.data, r) := by
  have htake : (v.data ++ ':' :: r).take v.data.length = v.data := List.take_left _ _
  have hdrop : (v.data ++ ':' :: r).drop v.data.length = ':' :: r := List.drop_left _ _
  have hdropS : (v.data ++ ':' :: r).drop (v.data.length + 1) = r := by
    rw [← List.tail_drop, hdrop]
    rfl
  unfold tryKeys
  apply findSome?_det
  · intro k hk
    by_cases hc : dotMatch k.data ((v.data ++ ':' :: r).take k.data.length) = true ∧
        ((v.data ++ ':' :: r).drop k.data.length).head? = some ':'
    · right
      rw [if_pos hc]
      have hlen : k.data.length = v.data.length := by
        rcases Nat.lt_trichotomy k.data.length v.data.length with hlt | heq | hgt
        · exfalso
          have hd2 := hc.2
          rw [List.drop_append_of_le_length (Nat.le_of_lt hlt)] at hd2
          cases hvd : v.data.drop k.data.length with
          | nil =>
            have hlen0 := List.length_drop k.data.length v.data
            rw [hvd] at hlen0
            simp only [List.length_nil] at hlen0
            omega
          | cons d0 dt =>
            rw [hvd] at hd2
            simp only [List.cons_append, List.head?_cons, Option.some.injEq] at hd2
            have hmem0 : d0 ∈ v.data.drop k.data.length := by
              rw [hvd]
              simp
            have hmem : d0 ∈ v.data := List.mem_of_mem_drop hmem0
            rw [hd2] at hmem
            exact goodKey_no_colon (hkeys v hv) hmem
        · exact heq
        · exfalso
          have h1 := hc.1
          rw [List.take_append_eq_append_take,
            List.take_of_length_le (Nat.le_of_lt hgt)] at h1
          rcases dotMatch_append_split v.data k.data _ h1 with ⟨hsplit1, hsplit2⟩
          obtain ⟨m, hm⟩ : ∃ m, k.data.length - v.data.length = m + 1 :=
            ⟨k.data.length - v.data.length - 1, by omega⟩
          rw [hm, List.take_succ_cons] at hsplit2
          cases hkd : k.data.drop v.data.length with
          | nil =>
            rw [hkd] at hsplit2
            simp [dotMatch] at hsplit2
          | cons kc kd =>
            rw [hkd] at hsplit2
            simp only [dotMatch, Bool.and_eq_true, Bool.or_eq_true, beq_iff_eq] at hsplit2
            rcases hsplit2.1 with hkc | hkc
            · have hcross : crossColonB k v = true := by
                unfold crossColonB
                simp only [Bool.and_eq_true, decide_eq_true_eq]
                refine ⟨⟨hgt, hsplit1⟩, ?_⟩
                rw [hkd, hkc]
                simp
              rw [hcr k hk] at hcross
              cases hcross
            · have hmem0 : kc ∈ k.data.drop v.data.length := by
                rw [hkd]
                simp
              have hmem : kc ∈ k.data := List.mem_of_mem_drop hmem0
              rw [hkc] at hmem
              exact goodKey_no_colon (hkeys k hk) hmem
      rw [hlen, htake, hdropS]
    · left
      rw [if_neg hc]
  · refine ⟨v, hv, ?_⟩
    have hcv : dotMatch v.data ((v.data ++ ':' :: r).take v.data.length) = true ∧
        ((v.data ++ ':' :: r).drop v.data.length).head? = some ':' := by
      constructor
      · rw [htake]; exact dotMatch_refl _
      · rw [hdrop]; rfl
    rw [if_pos hcv]
    simp

/-! ### Decomposition of successful matches -/

theorem unlockedMatch_decomp {keys : List String} {line w t r : List Char}
    (h : unlockedMatch keys line = some (w, t, r)) :
    line = w ++ t ++ ':' :: r ∧ (∀ ch ∈ w, isPySpace ch = true ∨ ch = '-') ∧
      (∃ k ∈ keys, dotMatch k.data t = true) ∧
      (w, t ++ ':' :: r) ∈ wsCandidates line := by
  unfold unlockedMatch at h
  rcases List.exists_of_findSome?_eq_some h with ⟨c, hc, hfc⟩
  obtain ⟨c1, c2⟩ := c
  cases htk : tryKeys keys c2 with
  | none =>
    rw [htk] at hfc
    cases hfc
  | some m =>
    obtain ⟨m1, m2⟩ := m
    rw [htk] at hfc
    simp only [Option.map_some', Option.some.injEq, Prod.mk.injEq] at hfc
    obtain ⟨rfl, rfl, rfl⟩ := hfc
    rcases wsCandidates_split hc with ⟨rfl, hchars⟩
    rcases tryKeys_some htk with ⟨rfl, hkey⟩
    exact ⟨by rw [List.append_assoc], hchars, hkey, hc⟩

theorem lockedMatch_some {p : List Char} {keys : List String} {line t r : List Char}
    (h : lockedMatch p keys line = some (t, r)) :
    line = p ++ t ++ ':' :: r ∧ ∃ k ∈ keys, dotMatch k.data t = true := by
  unfold lockedMatch at h
  by_cases hp : p.isPrefixOf line = true
  · rw [if_pos hp] at h
    rcases (isPrefixOf_iff_append p line).mp hp with ⟨s, rfl⟩
    rw [List.drop_left] at h
    rcases tryKeys_some h with ⟨hs, hk⟩
    refine ⟨?_, hk⟩
    rw [hs, List.append_assoc]
  · rw [if_neg hp] at h
    cases h

theorem lockedMatch_exact {p : List Char} {keys : List String} {v : String} {r : List Char}
    (hkeys : ∀ k ∈ keys, goodKeyB k = true) (hv : v ∈ keys)
    (hcr : ∀ k ∈ keys, crossColonB k v = false) :
    lockedMatch p keys (p ++ (v.data ++ ':' :: r)) = some (v.data, r) := by
  unfold lockedMatch
  have hp : p.isPrefixOf (p ++ (v.data ++ ':' :: r)) = true :=
    (isPrefixOf_iff_append _ _).mpr ⟨_, rfl⟩
  rw [if_pos hp, List.drop_left]
  exact tryKeys_value r hkeys hv hcr

theorem matchOf_locked_eq {d : FqcnDict} {p line w t r : List Char}
    (h : matchOf d (some p) line = some (w, t, r)) :
    w = p ∧ lockedMatch p (dictKeys d) line = some (t, r) := by
  simp only [matchOf] at h
  cases hlm : lockedMatch p (dictKeys d) line with
  | none => rw [hlm] at h; cases h
  | some m =>
    obtain ⟨m1, m2⟩ := m
    rw [hlm] at h
    simp only [Option.map_some', Option.some.injEq, Prod.mk.injEq] at h
    obtain ⟨rfl, rfl, rfl⟩ := h
    exact ⟨rfl, rfl⟩

theorem lineStep_no_match {d : FqcnDict} {st : Option (List Char)} {line : List Char}
    (h : matchOf d st line = none) : lineStep d st line = some (line, st, '.') := by
  simp only [lineStep, h]

theorem lineStep_match {d : FqcnDict} {st : Option (List Char)} {line w t r : List Char}
    {v : String} (h : matchOf d st line = some (w, t, r))
    (hv : pyLookup d (String.mk t) = some v) :
    lineStep d st line =
      some (w ++ v.data ++ ':' :: r, some w, if t = v.data then '.' else '*') := by
  simp only [lineStep, h, hv]

theorem lineStep_keyerror {d : FqcnDict} {st : Option (List Char)} {line w t r : List Char}
    (h : matchOf d st line = some (w, t, r)) (hv : pyLookup d (String.mk t) = none) :
    lineStep d st line = none := by
  simp only [lineStep, h, hv]

/-! ### Dictionary lemmas -/

theorem lookup_cons (e : String × String) (d : FqcnDict) (k : String) :
    pyLookup (e :: d) k = if e.1 = k then some e.2 else pyLookup d k := by
  unfold pyLookup
  rw [List.find?_cons]
  by_cases he : e.1 = k
  · simp [he]
  · have hb : (e.1 == k) = false := by simp [he]
    simp [hb, he]

theorem lookup_append_left {d : FqcnDict} {k z : String} (h : pyLookup d k = some z) :
    ∀ l : FqcnDict, pyLookup (d ++ l) k = some z := by
  induction d with
  | nil => simp [pyLookup] at h
  | cons e d' ih =>
    intro l
    rw [List.cons_append, lookup_cons]
    rw [lookup_cons] at h
    by_cases hek : e.1 = k
    · rwa [if_pos hek] at h ⊢
    · rw [if_neg hek] at h ⊢
      exact ih h l

theorem lookup_map_replace_self (x v : String) :
    ∀ d : FqcnDict, d.any (fun e => e.1 == x) = true →
      pyLookup (d.map (fun e => if e.1 == x then (x, v) else e)) x = some v
  | [], h => by cases h
  | e :: d', h => by
    by_cases he : e.1 = x
    · rw [List.map_cons, if_pos (beq_iff_eq.mpr he), lookup_cons, if_pos rfl]
    · rw [List.map_cons, if_neg (by simp [he]), lookup_cons, if_neg he]
      apply lookup_map_replace_self x v d'
      simpa [List.any_cons, he] using h

theorem lookup_map_replace_preserve (x y z v : String) (hxy : y ≠ x) :
    ∀ d : FqcnDict, pyLookup d y = some z →
      pyLookup (d.map (fun e => if e.1 == x then (x, v) else e)) y = some z
  | [], h => by simp [pyLookup] at h
  | e :: d', h => by
    rw [lookup_cons] at h
    by_cases he : e.1 = x
    · rw [List.map_cons, if_pos (beq_iff_eq.mpr he), lookup_cons]
      rw [if_neg (fun hh => hxy hh.symm)]
      rw [if_neg (fun hh => hxy (hh.symm.trans he))] at h
      exact lookup_map_replace_preserve x y z v hxy d' h
    · rw [List.map_cons, if_neg (by simp [he]), lookup_cons]
      by_cases hey : e.1 = y
      · rwa [if_pos hey] at h ⊢
      · rw [if_neg hey] at h ⊢
        exact lookup_map_replace_preserve x y z v hxy d' h

theorem lookup_dictSet_self (d : FqcnDict) (x v : String) :
    pyLookup (dictSet d x v) x = some v := by
  unfold dictSet
  by_cases h : d.any (fun e => e.1 == x) = true
  · rw [if_pos h]
    exact lookup_map_replace_self x v d h
  · rw [if_neg h]
    induction d with
    | nil => rw [List.nil_append, lookup_cons, if_pos rfl]
    | cons e d' ih =>
      rw [List.cons_append, lookup_cons]
      have he : e.1 ≠ x := fun hh => h (by simp [List.any_cons, hh])
      rw [if_neg he]
      exact ih (fun hh => h (by simp [List.any_cons, hh]))

theorem lookup_dictSet_preserve (d : FqcnDict) (x y : String)
    (hy : pyLookup d y = some y) : pyLookup (dictSet d x x) y = some y := by
  by_cases hxy : y = x
  · subst hxy
    exact lookup_dictSet_self d y y
  · unfold dictSet
    by_cases h : d.any (fun e => e.1 == x) = true
    · rw [if_pos h]
      exact lookup_map_replace_preserve x y y x hxy d hy
    · rw [if_neg h]
      exact lookup_append_left hy _

theorem values_dictSet_sub (d : FqcnDict) (x v u : String)
    (hu : u ∈ dictValues (dictSet d x v)) : u ∈ v :: dictValues d := by
  unfold dictSet at hu
  by_cases h : d.any (fun e => e.1 == x) = true
  · rw [if_pos h] at hu
    unfold dictValues at hu
    rw [List.map_map] at hu
    rcases List.mem_map.mp hu with ⟨e, he, heq⟩
    by_cases hex : e.1 = x
    · have huv : u = v := by
        rw [← heq]
        simp [Function.comp, beq_iff_eq.mpr hex]
      rw [huv]
      exact List.mem_cons_self _ _
    · refine List.mem_cons_of_mem _ ?_
      rw [← heq]
      simp only [Function.comp, if_neg (by simp [hex] : ¬((e.1 == x) = true))]
      exact List.mem_map_of_mem _ he
  · rw [if_neg h] at hu
    unfold dictValues at hu
    rw [List.map_append] at hu
    rcases List.mem_append.mp hu with h1 | h1
    · exact List.mem_cons_of_mem _ h1
    · have huv : u = v := by
        simp only [List.map_cons, List.map_nil, List.mem_singleton] at h1
        exact h1
      rw [huv]
      exact List.mem_cons_self _ _

theorem lookup_mem {d : FqcnDict} {k v : String} (h : pyLookup d k = some v) :
    k ∈ dictKeys d ∧ v ∈ dictValues d := by
  unfold pyLookup at h
  cases hf : d.find? (fun e => e.1 == k) with
  | none => rw [hf] at h; cases h
  | some e =>
    rw [hf] at h
    simp only [Option.map_some', Option.some.injEq] at h
    have hmem := List.mem_of_find?_eq_some hf
    have hkey := List.find?_some hf
    simp only [beq_iff_eq] at hkey
    constructor
    · rw [← hkey]
      exact List.mem_map_of_mem _ hmem
    · rw [← h]
      exact List.mem_map_of_mem _ hmem

theorem foldl_selfset_lookup (x0 : String) :
    ∀ (l : List String) (acc : FqcnDict),
      (x0 ∈ l ∨ pyLookup acc x0 = some x0) →
      pyLookup (l.foldl (fun a x => dictSet a x x) acc) x0 = some x0
  | [], acc, h => by
    rcases h with h | h
    · simp at h
    · simpa using h
  | x :: l', acc, h => by
    rw [List.foldl_cons]
    apply foldl_selfset_lookup x0 l'
    rcases h with h | h
    · rcases List.mem_cons.mp h with rfl | h2
      · right
        exact lookup_dictSet_self acc x0 x0
      · left
        exact h2
    · right
      exact lookup_dictSet_preserve acc x x0 h

theorem foldl_selfset_values (base : List String) :
    ∀ (l : List String) (acc : FqcnDict),
      (∀ x ∈ l, x ∈ base) → (∀ u ∈ dictValues acc, u ∈ base) →
      ∀ u ∈ dictValues (l.foldl (fun a x => dictSet a x x) acc), u ∈ base
  | [], _, _, hacc, u, hu => hacc u (by simpa using hu)
  | x :: l', acc, hl, hacc, u, hu => by
    rw [List.foldl_cons] at hu
    refine foldl_selfset_values base l' (dictSet acc x x)
      (fun y hy => hl y (List.mem_cons_of_mem _ hy)) ?_ u hu
    intro w hw
    rcases List.mem_cons.mp (values_dictSet_sub acc x x w hw) with rfl | hw2
    · exact hl w (by simp)
    · exact hacc w hw2

/-- C4's core fact: after the self-mapping post-processing, every value of
the original map looks itself up to itself. -/
theorem addSelfMaps_lookup_value {d : FqcnDict} {v : String} (hv : v ∈ dictValues d) :
    pyLookup (addSelfMaps d) v = some v :=
  foldl_selfset_lookup v (dictValues d) d (Or.inl hv)

theorem addSelfMaps_values_sub {d : FqcnDict} {u : String}
    (hu : u ∈ dictValues (addSelfMaps d)) : u ∈ dictValues d :=
  foldl_selfset_values (dictValues d) (dictValues d) d (fun _ h => h) (fun _ h => h) u hu

/-- Every value reachable by lookup in the post-processed map is a
self-mapped key of it. -/
theorem addSelfMaps_selfmap {d0 : FqcnDict} {k v : String}
    (h : pyLookup (addSelfMaps d0) k = some v) :
    pyLookup (addSelfMaps d0) v = some v :=
  addSelfMaps_lookup_value (addSelfMaps_values_sub (lookup_mem h).2)

/-! ### Transfer of whitespace candidates between lines with the same front -/

theorem wsCandidates_transfer {u t1 t2 : List Char} {x1 x2 : Char} {t1' t2' : List Char}
    (e1 : t1 = x1 :: t1') (e2 : t2 = x2 :: t2')
    (g1 : isPySpace x1 = false) (g1d : x1 ≠ '-')
    (g2 : isPySpace x2 = false)
    {c s : List Char} (hm : (c, s) ∈ wsCandidates (u ++ t1)) :
    ∃ s2, (c, s2) ∈ wsCandidates (u ++ t2) ∧ c ++ s2 = u ++ t2 := by
  have ht1 : ∀ ch, t1.head? = some ch → isPySpace ch = false := by
    intro ch hch
    rw [e1] at hch
    simp only [List.head?_cons, Option.some.injEq] at hch
    rw [← hch]
    exact g1
  have ht2 : ∀ ch, t2.head? = some ch → isPySpace ch = false := by
    intro ch hch
    rw [e2] at hch
    simp only [List.head?_cons, Option.some.injEq] at hch
    rw [← hch]
    exact g2
  have htw1 : (u ++ t1).takeWhile isPySpace = u.takeWhile isPySpace :=
    takeWhile_app_stop isPySpace t1 ht1 u
  have htw2 : (u ++ t2).takeWhile isPySpace = u.takeWhile isPySpace :=
    takeWhile_app_stop isPySpace t2 ht2 u
  have hRle : (u.takeWhile isPySpace).length ≤ u.length := takeWhile_len_le isPySpace u
  unfold wsCandidates at hm
  rw [htw1] at hm
  rcases List.mem_flatMap.mp hm with ⟨a, ha, hmem⟩
  have hiu : (u.takeWhile isPySpace).length - a ≤ u.length :=
    le_trans (Nat.sub_le _ _) hRle
  rw [List.take_append_of_le_length hiu, List.drop_append_of_le_length hiu] at hmem
  cases hdu : u.drop ((u.takeWhile isPySpace).length - a) with
  | nil =>
    exfalso
    rw [hdu, List.nil_append, e1] at hmem
    rw [if_neg (by simp [g1d])] at hmem
    rcases mem_plusSplits.mp hmem with ⟨j, hj1, hj2, -, -⟩
    rw [List.takeWhile_cons, g1] at hj2
    simp at hj2
    omega
  | cons dc du =>
    rw [hdu] at hmem
    by_cases hdc : dc = '-'
    · subst hdc
      rw [if_pos (by simp)] at hmem
      simp only [List.cons_append, List.tail_cons] at hmem
      rcases List.mem_append.mp hmem with hmem1 | hmem2
      · rcases mem_plusSplits.mp hmem1 with ⟨j, hj1, hj2, hc, hs⟩
        have htwdu : (du ++ t1).takeWhile isPySpace = du.takeWhile isPySpace :=
          takeWhile_app_stop isPySpace t1 ht1 du
        rw [htwdu] at hj2
        have hjdu : j ≤ du.length := le_trans hj2 (takeWhile_len_le isPySpace du)
        rw [List.take_append_of_le_length hjdu] at hc
        refine ⟨du.drop j ++ t2, ?_, ?_⟩
        · unfold wsCandidates
          rw [htw2]
          apply List.mem_flatMap.mpr
          refine ⟨a, ha, ?_⟩
          rw [List.take_append_of_le_length hiu, List.drop_append_of_le_length hiu, hdu]
          rw [if_pos (by simp)]
          apply List.mem_append.mpr
          left
          simp only [List.cons_append, List.tail_cons]
          apply mem_plusSplits.mpr
          have htwdu2 : (du ++ t2).takeWhile isPySpace = du.takeWhile isPySpace :=
            takeWhile_app_stop isPySpace t2 ht2 du
          refine ⟨j, hj1, by rw [htwdu2]; exact hj2, ?_, ?_⟩
          · rw [List.take_append_of_le_length hjdu]
            exact hc
          · rw [List.drop_append_of_le_length hjdu]
        · rw [hc, List.append_assoc]
          have h1du : du.take j ++ (du.drop j ++ t2) = du ++ t2 := by
            rw [← List.append_assoc, List.take_append_drop]
          rw [h1du, List.append_assoc, List.singleton_append,
            show ('-' : Char) :: (du ++ t2) = ('-' :: du) ++ t2 from rfl, ← hdu,
            ← List.append_assoc, List.take_append_drop]
      · exfalso
        rcases mem_plusSplits.mp hmem2 with ⟨j, hj1, hj2, -, -⟩
        rw [List.takeWhile_cons, show isPySpace '-' = false from rfl] at hj2
        simp at hj2
        omega
    · rw [if_neg (by simp [hdc])] at hmem
      rcases mem_plusSplits.mp hmem with ⟨j, hj1, hj2, hc, hs⟩
      have htwdu : ((dc :: du) ++ t1).takeWhile isPySpace =
          (dc :: du).takeWhile isPySpace :=
        takeWhile_app_stop isPySpace t1 ht1 (dc :: du)
      rw [htwdu] at hj2
      have hjdu : j ≤ (dc :: du).length :=
        le_trans hj2 (takeWhile_len_le isPySpace (dc :: du))
      rw [List.take_append_of_le_length hjdu] at hc
      refine ⟨(dc :: du).drop j ++ t2, ?_, ?_⟩
      · unfold wsCandidates
        rw [htw2]
        apply List.mem_flatMap.mpr
        refine ⟨a, ha, ?_⟩
        rw [List.take_append_of_le_length hiu, List.drop_append_of_le_length hiu, hdu]
        rw [if_neg (by simp [hdc])]
        apply mem_plusSplits.mpr
        have htwdu2 : ((dc :: du) ++ t2).takeWhile isPySpace =
            (dc :: du).takeWhile isPySpace :=
          takeWhile_app_stop isPySpace t2 ht2 (dc :: du)
        refine ⟨j, hj1, by rw [htwdu2]; exact hj2, ?_, ?_⟩
        · rw [List.take_append_of_le_length hjdu]
          exact hc
        · rw [List.drop_append_of_le_length hjdu]
      · rw [hc, List.append_assoc]
        have h1du : (dc :: du).take j ++ ((dc :: du).drop j ++ t2) = (dc :: du) ++ t2 := by
          rw [← List.append_assoc, List.take_append_drop]
        rw [h1du, ← hdu, ← List.append_assoc, List.take_append_drop]

/-- After a successful unlocked match captured white `w`, text `t` and rest
`r`, the rewritten line `w ++ value ++ ':' ++ r` matches again with the same
white prefix, capturing exactly the value. -/
theorem unlockedMatch_rewritten {keys : List String} {line w t r : List Char} {v : String}
    (hkeys : ∀ k ∈ keys, goodKeyB k = true) (hvk : v ∈ keys)
    (hcr : ∀ k ∈ keys, crossColonB k v = false)
    (h1 : unlockedMatch keys line = some (w, t, r)) :
    unlockedMatch keys (w ++ (v.data ++ ':' :: r)) = some (w, v.data, r) := by
  rcases unlockedMatch_decomp h1 with ⟨hline, hwchars, ⟨k0, hk0, hdm⟩, hcand⟩
  rcases goodKey_head (hkeys k0 hk0) with ⟨c0, cs0, hk0d, hsp0, hdash0, hdot0⟩
  rcases goodKey_head (hkeys v hvk) with ⟨cv, csv, hvd, hspv, hdashv, hdotv⟩
  cases ht : t with
  | nil =>
    rw [hk0d, ht] at hdm
    simp [dotMatch] at hdm
  | cons tc t'' =>
    rw [hk0d, ht] at hdm
    simp only [dotMatch, Bool.and_eq_true, Bool.or_eq_true, beq_iff_eq] at hdm
    have htc : tc = c0 := by
      rcases hdm.1 with h | h
      · exact absurd h hdot0
      · exact h.symm
    have hline2 : line = w ++ (t ++ ':' :: r) := by
      rw [hline, List.append_assoc]
    rw [hline2, ht] at hcand
    have hterm : ∃ s2, (w, s2) ∈ wsCandidates (w ++ (v.data ++ ':' :: r)) ∧
        w ++ s2 = w ++ (v.data ++ ':' :: r) := by
      have he1 : ((tc :: t'') ++ ':' :: r : List Char) = tc :: (t'' ++ ':' :: r) := rfl
      have he2 : (v.data ++ ':' :: r : List Char) = cv :: (csv ++ ':' :: r) := by
        rw [hvd]
        rfl
      have hg1 : isPySpace tc = false := by
        rw [htc]
        exact hsp0
      have hg1d : tc ≠ '-' := by
        rw [htc]
        exact hdash0
      exact wsCandidates_transfer he1 he2 hg1 hg1d hspv hcand
    rcases hterm with ⟨s2, hmem2, heq2⟩
    have hs2 : s2 = v.data ++ ':' :: r := (List.append_inj heq2 rfl).2
    subst hs2
    unfold unlockedMatch
    apply findSome?_det
    · rintro ⟨c1, c2⟩ hcand2
      rcases wsCandidates_split hcand2 with ⟨hsplit, hchars2⟩
      rcases Nat.lt_trichotomy c1.length w.length with hlt | hleq | hgt
      · left
        rcases append_eq_split c1 w (v.data ++ ':' :: r) c2 hsplit.symm.symm
            (Nat.le_of_lt hlt) with ⟨m, hm1, hm2⟩
        cases m with
        | nil =>
          exfalso
          have := congrArg List.length hm1
          simp at this
          omega
        | cons mh m' =>
          have hmh : isPySpace mh = true ∨ mh = '-' := by
            apply hwchars
            rw [hm1]
            exact List.mem_append.mpr (Or.inr (List.mem_cons_self _ _))
          rw [hm2, List.cons_append]
          simp only []
          rw [tryKeys_bad_head hkeys hmh _]
          rfl
      · right
        have hinj := List.append_inj hsplit.symm (by omega)
        obtain ⟨rfl, rfl⟩ := hinj
        simp only []
        rw [tryKeys_value r hkeys hvk hcr]
        rfl
      · left
        rcases append_eq_split w c1 c2 (v.data ++ ':' :: r) hsplit.symm
            (Nat.le_of_lt hgt) with ⟨m, hm1, hm2⟩
        exfalso
        cases m with
        | nil =>
          have := congrArg List.length hm1
          simp at this
          omega
        | cons mh m' =>
          have hmh : isPySpace mh = true ∨ mh = '-' := by
            apply hchars2
            rw [hm1]
            exact List.mem_append.mpr (Or.inr (List.mem_cons_self _ _))
          rw [hvd, List.cons_append] at hm2
          injection hm2 with hm2h _
          rcases hmh with hmh | hmh
          · rw [← hm2h] at hmh
            rw [hspv] at hmh
            cases hmh
          · rw [← hm2h] at hmh
            exact hdashv hmh
    · refine ⟨(w, v.data ++ ':' :: r), hmem2, ?_⟩
      simp only []
      rw [tryKeys_value r hkeys hvk hcr]
      simp

/-! ### Idempotence of the line step on its own output -/

theorem lineStep_idem {d : FqcnDict}
    (hkeys : ∀ k ∈ dictKeys d, goodKeyB k = true)
    (hself : ∀ k v2, pyLookup d k = some v2 → pyLookup d v2 = some v2)
    (hcr : ∀ k ∈ dictKeys d, ∀ v2 ∈ dictValues d, crossColonB k v2 = false)
    {st : Option (List Char)} {line out : List Char} {st2 : Option (List Char)} {sym : Char}
    (h : lineStep d st line = some (out, st2, sym)) :
    ∃ sym2, lineStep d st out = some (out, st2, sym2) := by
  cases st with
  | none =>
    cases hm : matchOf d none line with
    | none =>
      rw [lineStep_no_match hm] at h
      simp only [Option.some.injEq, Prod.mk.injEq] at h
      obtain ⟨rfl, rfl, rfl⟩ := h
      exact ⟨'.', lineStep_no_match hm⟩
    | some wtr =>
      obtain ⟨w, t, r⟩ := wtr
      cases hv : pyLookup d (String.mk t) with
      | none =>
        rw [lineStep_keyerror hm hv] at h
        cases h
      | some v =>
        rw [lineStep_match hm hv] at h
        simp only [Option.some.injEq, Prod.mk.injEq] at h
        obtain ⟨rfl, rfl, rfl⟩ := h
        have hum : unlockedMatch (dictKeys d) line = some (w, t, r) := by
          simpa only [matchOf] using hm
        have hvv : pyLookup d v = some v := hself _ _ hv
        have hvk : v ∈ dictKeys d := (lookup_mem hvv).1
        have hvvals : v ∈ dictValues d := (lookup_mem hv).2
        have hum2 := unlockedMatch_rewritten hkeys hvk
          (fun k hk => hcr k hk v hvvals) hum
        have hm2 : matchOf d none (w ++ (v.data ++ ':' :: r)) = some (w, v.data, r) := by
          simpa only [matchOf] using hum2
        have hvv2 : pyLookup d (String.mk v.data) = some v := hvv
        have hstep2 := lineStep_match hm2 hvv2
        refine ⟨if v.data = v.data then '.' else '*', ?_⟩
        rw [List.append_assoc w v.data (':' :: r)] at hstep2 ⊢
        exact hstep2
  | some p =>
    cases hm : matchOf d (some p) line with
    | none =>
      rw [lineStep_no_match hm] at h
      simp only [Option.some.injEq, Prod.mk.injEq] at h
      obtain ⟨rfl, rfl, rfl⟩ := h
      exact ⟨'.', lineStep_no_match hm⟩
    | some wtr =>
      obtain ⟨w, t, r⟩ := wtr
      obtain ⟨rfl, hlm⟩ := matchOf_locked_eq hm
      cases hv : pyLookup d (String.mk t) with
      | none =>
        rw [lineStep_keyerror hm hv] at h
        cases h
      | some v =>
        rw [lineStep_match hm hv] at h
        simp only [Option.some.injEq, Prod.mk.injEq] at h
        obtain ⟨rfl, rfl, rfl⟩ := h
        have hvv : pyLookup d v = some v := hself _ _ hv
        have hvk : v ∈ dictKeys d := (lookup_mem hvv).1
        have hvvals : v ∈ dictValues d := (lookup_mem hv).2
        have hlm2 : lockedMatch w (dictKeys d) (w ++ (v.data ++ ':' :: r)) =
            some (v.data, r) :=
          lockedMatch_exact hkeys hvk (fun k hk => hcr k hk v hvvals)
        have hm2 : matchOf d (some w) (w ++ (v.data ++ ':' :: r)) = some (w, v.data, r) := by
          simp only [matchOf, hlm2, Option.map_some']
        have hvv2 : pyLookup d (String.mk v.data) = some v := hvv
        have hstep2 := lineStep_match hm2 hvv2
        refine ⟨if v.data = v.data then '.' else '*', ?_⟩
        rw [List.append_assoc w v.data (':' :: r)] at hstep2 ⊢
        exact hstep2

theorem foldLines_idem {d : FqcnDict}
    (hkeys : ∀ k ∈ dictKeys d, goodKeyB k = true)
    (hself : ∀ k v2, pyLookup d k = some v2 → pyLookup d v2 = some v2)
    (hcr : ∀ k ∈ dictKeys d, ∀ v2 ∈ dictValues d, crossColonB k v2 = false) :
    ∀ (lines : List (List Char)) (st : Option (List Char)) outs syms stf,
      foldLines d st lines = some (outs, syms, stf) →
      ∃ syms2, foldLines d st outs = some (outs, syms2, stf)
  | [], st, outs, syms, stf, h => by
    simp only [foldLines, Option.some.injEq, Prod.mk.injEq] at h
    obtain ⟨rfl, rfl, rfl⟩ := h
    exact ⟨[], by simp [foldLines]⟩
  | line :: rest, st, outs, syms, stf, h => by
    cases hls : lineStep d st line with
    | none =>
      simp only [foldLines, hls] at h
      cases h
    | some o1 =>
      obtain ⟨nl, st2, sy⟩ := o1
      cases hfr : foldLines d st2 rest with
      | none =>
        simp only [foldLines, hls, hfr] at h
        cases h
      | some res =>
        obtain ⟨ls, syms', stf'⟩ := res
        simp only [foldLines, hls, hfr, Option.some.injEq, Prod.mk.injEq] at h
        obtain ⟨rfl, rfl, rfl⟩ := h
        rcases lineStep_idem hkeys hself hcr hls with ⟨sy2, hls2⟩
        rcases foldLines_idem hkeys hself hcr rest st2 ls syms' stf' hfr with ⟨syms2, hfr2⟩
        refine ⟨sy2 :: syms2, ?_⟩
        simp only [foldLines, hls2, hfr2]

theorem lookup_none_nokey {d : FqcnDict} {k : String} (h : pyLookup d k = none) :
    k ∉ dictKeys d := by
  induction d with
  | nil => simp [dictKeys]
  | cons e d' ih =>
    rw [lookup_cons] at h
    by_cases he : e.1 = k
    · rw [if_pos he] at h
      cases h
    · rw [if_neg he] at h
      intro hmem
      unfold dictKeys at hmem
      rw [List.map_cons] at hmem
      rcases List.mem_cons.mp hmem with h2 | h2
      · exact he h2.symm
      · exact ih h h2

theorem mem_extsSelect {A : String → String} {pm fm : String → String → Bool}
    {eps : List String} {f name : String} :
    ∀ {exts : List String} {x : String}, x ∈ extsSelect A pm fm eps f name exts →
      x = f ∧ isexcluded A pm fm f eps = false
  | [], x, hx => by simp [extsSelect] at hx
  | ext :: rest, x, hx => by
    unfold extsSelect at hx
    by_cases h1 : strEndsWith (strToLower name) (strToLower ext) = true
    · rw [if_pos h1] at hx
      by_cases h2 : isexcluded A pm fm f eps = true
      · rw [if_pos h2] at hx
        simp at hx
      · rw [if_neg h2] at hx
        rcases List.mem_cons.mp hx with rfl | hx'
        · exact ⟨rfl, by simpa using h2⟩
        · exact mem_extsSelect hx'
    · rw [if_neg h1] at hx
      exact mem_extsSelect hx

theorem mem_parsefiles {A : String → String} {pm fm : String → String → Bool}
    {J : String → String → String} {walk : List (String × List String)}
    {eps exts : List String} {x : String}
    (hx : x ∈ parsefiles A pm fm J walk eps exts) :
    isexcluded A pm fm x eps = false := by
  unfold parsefiles at hx
  rcases List.mem_flatMap.mp hx with ⟨de, _, hx2⟩
  by_cases hd : isexcluded A pm fm de.1 eps = true
  · rw [if_pos hd] at hx2
    simp at hx2
  · rw [if_neg hd] at hx2
    rcases List.mem_flatMap.mp hx2 with ⟨name, _, hx3⟩
    rcases mem_extsSelect hx3 with ⟨rfl, hexc⟩
    exact hexc

/-! ### The claims -/

/-- C5: the spec says an absent optional config file (no `-c` flag, or a
path that does not exist) is not an error and simply adds no exclusions.
The code disagrees: line 186 assigns `config = False`, not `_config`, so
`_config` is unbound on both of those paths and the test `if _config and
'exclude_paths' in _config.keys()` on line 193 raises NameError, aborting
the run; only a successfully loaded config file avoids the crash. -/
theorem C5_missing_config_crash (A : String → String) (excl : List String) :
    configStep A none excl = Except.error () ∧
    configStep A (some none) excl = Except.error () ∧
    ∀ entries, configStep A (some (some entries)) excl ≠ Except.error () := by
  refine ⟨rfl, rfl, ?_⟩
  intro entries hcontra
  simp [configStep] at hcontra

/-- C7: a module whose detail query fails (non-zero status), whose parsed
response is empty or lacks the module name, or whose `doc` object lacks
`collection` or `module`, contributes no entry to the generated map, and
generation proceeds over the remaining modules unchanged. -/
theorem C7_skip_incomplete (d0 : FqcnDict) (pre post : List ModDetail) (r : ModDetail)
    (hr : r.returncode > 0 ∨ r.present = false ∨ docComplete r.doc = false) :
    generateMap d0 (pre ++ r :: post) = generateMap d0 (pre ++ post) := by
  unfold generateMap
  rw [List.foldl_append, List.foldl_append, List.foldl_cons]
  have hstep : ∀ d : FqcnDict, genStep d r = d := by
    intro d
    unfold genStep
    rcases hr with h | h | h
    · rw [if_pos h]
    · by_cases hrc : r.returncode > 0
      · rw [if_pos hrc]
      · rw [if_neg hrc, if_pos h]
    · by_cases hrc : r.returncode > 0
      · rw [if_pos hrc]
      · rw [if_neg hrc]
        by_cases hp : r.present = false
        · rw [if_pos hp]
        · rw [if_neg hp]
          cases hdoc : r.doc with
          | none => rfl
          | some pr =>
            obtain ⟨oc, om⟩ := pr
            cases oc with
            | none => rfl
            | some c =>
              cases om with
              | none => rfl
              | some m =>
                exfalso
                rw [hdoc] at h
                simp [docComplete] at h
  rw [hstep]

/-- C7 witness: a detail response with status 0 that lacks the
`collection` field is skipped and generation continues. -/
theorem C7_skip_incomplete_witness :
    (({ returncode := 0, present := true, doc := some (none, some "copy") } :
        ModDetail).returncode > 0 ∨
      ({ returncode := 0, present := true, doc := some (none, some "copy") } :
        ModDetail).present = false ∨
      docComplete ({ returncode := 0, present := true, doc := some (none, some "copy") } :
        ModDetail).doc = false) ∧
    generateMap []
        [{ returncode := 0, present := true, doc := some (some "ansible.builtin", some "dd") },
         { returncode := 0, present := true, doc := some (none, some "copy") },
         { returncode := 0, present := true, doc := some (some "ansible.builtin", some "cp") }] =
      generateMap []
        [{ returncode := 0, present := true, doc := some (some "ansible.builtin", some "dd") },
         { returncode := 0, present := true, doc := some (some "ansible.builtin", some "cp") }] :=
  ⟨by decide,
   C7_skip_incomplete []
     [{ returncode := 0, present := true, doc := some (some "ansible.builtin", some "dd") }]
     [{ returncode := 0, present := true, doc := some (some "ansible.builtin", some "cp") }]
     { returncode := 0, present := true, doc := some (none, some "copy") } (by decide)⟩

/-- C8: when the generation path is taken (missing cache or forced update)
and the module-listing call exits non-zero, `check=True` raises and the
whole run aborts: no map is produced and no file is processed. -/
theorem C8_listing_failure_fatal (cache : Option FqcnDict) (update : Bool)
    (listingRc : Nat) (details : List ModDetail) (files : List (List (List Char)))
    (hgen : cache = none ∨ update = true) (hrc : listingRc ≠ 0) :
    runAll cache update listingRc details files = Except.error () := by
  unfold runAll buildFqcnDict
  have hcond : (cache.isNone || update) = true := by
    rcases hgen with rfl | rfl
    · simp
    · simp
  rw [if_pos hcond, if_neg hrc]

/-- C8 witness: missing cache and a failing listing abort the run before
any file is touched. -/
theorem C8_listing_failure_fatal_witness :
    ((none : Option FqcnDict) = none ∨ false = true) ∧ (1 : Nat) ≠ 0 ∧
    runAll none false 1 [] [["- copy: x".data]] = Except.error () :=
  ⟨Or.inl rfl, by decide,
   C8_listing_failure_fatal none false 1 [] [["- copy: x".data]] (Or.inl rfl) (by decide)⟩

/-- C9: the fqcn map-file path is appended to the exclusion list before
file discovery, so no member of the selected file set resolves to the
map file's absolute path — the cache artifact is never processed. -/
theorem C9_mapfile_never_selected (A : String → String) (pm fm : String → String → Bool)
    (J : String → String → String) (walk : List (String × List String))
    (argsExclude exts : List String) (mf : String) (f : String)
    (hf : f ∈ parsefiles A pm fm J walk (buildExcludePaths argsExclude mf) exts) :
    A f ≠ A mf := by
  have hexc := mem_parsefiles hf
  intro heq
  have hmf : mf ∈ buildExcludePaths argsExclude mf := by
    unfold buildExcludePaths
    simp
  have htrue : isexcluded A pm fm f (buildExcludePaths argsExclude mf) = true := by
    unfold isexcluded
    apply List.any_eq_true.mpr
    refine ⟨mf, hmf, ?_⟩
    have hp : (A mf).data.isPrefixOf (A f).data = true := by
      rw [heq]
      exact (isPrefixOf_iff_append _ _).mpr ⟨[], by simp⟩
    simp [hp]
  rw [hexc] at htrue
  cases htrue

/-- C9 witness: a normal playbook file under the scanned directory is
selected while the map file sitting next to it is not. -/
theorem C9_mapfile_never_selected_witness :
    ("/root/playbooks/site.yml" ∈
      parsefiles (fun s => s) (fun _ _ => false) (fun _ _ => false)
        (fun dp n => dp ++ "/" ++ n) [("/root/playbooks", ["site.yml"])]
        (buildExcludePaths [] "/root/fqcn.yml") ["yml"]) ∧
    (fun (s : String) => s) "/root/playbooks/site.yml" ≠
      (fun (s : String) => s) "/root/fqcn.yml" :=
  ⟨by decide,
   C9_mapfile_never_selected (fun s => s) (fun _ _ => false) (fun _ _ => false)
     (fun dp n => dp ++ "/" ++ n) [("/root/playbooks", ["site.yml"])] [] ["yml"]
     "/root/fqcn.yml" "/root/playbooks/site.yml" (by decide)⟩

/-- C1: once a file's first match captures its whitespace/dash prefix, that
exact literal prefix is required for every later match: (a) in the locked
state, a line carrying a known module key behind a DIFFERENT
whitespace/dash prefix is not matched and passes through unchanged with the
lock intact; (b) the locked prefix never changes while the file is
processed; (c) on the first unlocked match, the state locks to exactly the
captured white group.  (The state starts unset for every file by
construction: `runFile` is `foldLines` from the `none` state.) -/
theorem C1_indentation_lock (d : FqcnDict) (p w : List Char) (k : String) (r : List Char)
    (hkeys : ∀ k2 ∈ dictKeys d, goodKeyB k2 = true)
    (hp : ∀ c ∈ p, isPySpace c = true ∨ c = '-')
    (hw : ∀ c ∈ w, isPySpace c = true ∨ c = '-')
    (hk : k ∈ dictKeys d) (hne : w ≠ p) :
    lineStep d (some p) (w ++ k.data ++ ':' :: r) =
      some (w ++ k.data ++ ':' :: r, some p, '.') ∧
    (∀ line out st2 sym, lineStep d (some p) line = some (out, st2, sym) → st2 = some p) ∧
    (∀ line w2 t2 r2, unlockedMatch (dictKeys d) line = some (w2, t2, r2) →
      ∀ out st2 sym, lineStep d none line = some (out, st2, sym) → st2 = some w2) := by
  refine ⟨?_, ?_, ?_⟩
  · apply lineStep_no_match
    simp only [matchOf]
    have hlm : lockedMatch p (dictKeys d) (w ++ k.data ++ ':' :: r) = none := by
      unfold lockedMatch
      by_cases hpre : p.isPrefixOf (w ++ k.data ++ ':' :: r) = true
      · rw [if_pos hpre]
        rcases (isPrefixOf_iff_append _ _).mp hpre with ⟨s, hs⟩
        have hs' : w ++ (k.data ++ ':' :: r) = p ++ s := by
          rw [← List.append_assoc]
          exact hs
        rcases goodKey_head (hkeys k hk) with ⟨c0, cs0, hkd, hsp0, hdash0, hdot0⟩
        have hdropped : (w ++ k.data ++ ':' :: r).drop p.length = s := by
          rw [List.append_assoc, hs', List.drop_left]
        rw [hdropped]
        rcases Nat.lt_trichotomy p.length w.length with hlt | heq | hgt
        · rcases append_eq_split p w (k.data ++ ':' :: r) s hs' (Nat.le_of_lt hlt)
            with ⟨m, hm1, hm2⟩
          cases m with
          | nil =>
            exfalso
            have := congrArg List.length hm1
            simp at this
            omega
          | cons mh m' =>
            have hmh : isPySpace mh = true ∨ mh = '-' := by
              apply hw
              rw [hm1]
              exact List.mem_append.mpr (Or.inr (List.mem_cons_self _ _))
            rw [hm2, List.cons_append]
            exact tryKeys_bad_head hkeys hmh _
        · exfalso
          exact hne ((List.append_inj hs'.symm heq).1).symm
        · exfalso
          rcases append_eq_split w p s (k.data ++ ':' :: r) hs'.symm (Nat.le_of_lt hgt)
            with ⟨m, hm1, hm2⟩
          cases m with
          | nil =>
            have := congrArg List.length hm1
            simp at this
            omega
          | cons mh m' =>
            have hmh : isPySpace mh = true ∨ mh = '-' := by
              apply hp
              rw [hm1]
              exact List.mem_append.mpr (Or.inr (List.mem_cons_self _ _))
            rw [hkd, List.cons_append] at hm2
            injection hm2 with hm2h _
            rcases hmh with hx | hx
            · rw [← hm2h, hsp0] at hx
              cases hx
            · rw [← hm2h] at hx
              exact hdash0 hx
      · rw [if_neg hpre]
    rw [hlm]
    rfl
  · intro line out st2 sym hstep
    cases hm : matchOf d (some p) line with
    | none =>
      rw [lineStep_no_match hm] at hstep
      simp only [Option.some.injEq, Prod.mk.injEq] at hstep
      exact hstep.2.1.symm
    | some wtr =>
      obtain ⟨w2, t2, r2⟩ := wtr
      obtain ⟨rfl, -⟩ := matchOf_locked_eq hm
      cases hv : pyLookup d (String.mk t2) with
      | none =>
        rw [lineStep_keyerror hm hv] at hstep
        cases hstep
      | some v =>
        rw [lineStep_match hm hv] at hstep
        simp only [Option.some.injEq, Prod.mk.injEq] at hstep
        exact hstep.2.1.symm
  · intro line w2 t2 r2 hum out st2 sym hstep
    have hm : matchOf d none line = some (w2, t2, r2) := by
      simpa only [matchOf] using hum
    cases hv : pyLookup d (String.mk t2) with
    | none =>
      rw [lineStep_keyerror hm hv] at hstep
      cases hstep
    | some v =>
      rw [lineStep_match hm hv] at hstep
      simp only [Option.some.injEq, Prod.mk.injEq] at hstep
      exact hstep.2.1.symm

/-- C1 witness: with the map for `command`, a file locked at prefix
`"  - "` leaves the differently indented line `"    - command: echo"`
untouched even though `command` is a known key. -/
theorem C1_indentation_lock_witness :
    (∀ k2 ∈ dictKeys (addSelfMaps [("command", "ansible.builtin.command")]),
      goodKeyB k2 = true) ∧
    (∀ c ∈ "  - ".data, isPySpace c = true ∨ c = '-') ∧
    (∀ c ∈ "    - ".data, isPySpace c = true ∨ c = '-') ∧
    "command" ∈ dictKeys (addSelfMaps [("command", "ansible.builtin.command")]) ∧
    "    - ".data ≠ "  - ".data ∧
    lineStep (addSelfMaps [("command", "ansible.builtin.command")]) (some "  - ".data)
        ("    - ".data ++ "command".data ++ ':' :: " echo".data) =
      some ("    - ".data ++ "command".data ++ ':' :: " echo".data,
        some "  - ".data, '.') :=
  ⟨by decide, by decide, by decide, by decide, by decide,
   (C1_indentation_lock (addSelfMaps [("command", "ansible.builtin.command")])
     "  - ".data "    - ".data "command" " echo".data
     (by decide) (by decide) (by decide) (by decide) (by decide)).1⟩

/-- C2: a matching line in either state decomposes as prefix ++ token ++
colon ++ rest, and its rewrite replaces exactly the token by the mapped
value, keeping prefix, colon and rest verbatim; non-matching lines pass
through byte-for-byte with the state unchanged. -/
theorem C2_token_rewrite (d : FqcnDict) (st : Option (List Char))
    (line w t r : List Char) (v : String)
    (hm : matchOf d st line = some (w, t, r))
    (hv : pyLookup d (String.mk t) = some v) :
    line = w ++ t ++ ':' :: r ∧
    lineStep d st line =
      some (w ++ v.data ++ ':' :: r, some w, if t = v.data then '.' else '*') ∧
    ∀ st3 l3, matchOf d st3 l3 = none → lineStep d st3 l3 = some (l3, st3, '.') := by
  refine ⟨?_, lineStep_match hm hv, fun st3 l3 h3 => lineStep_no_match h3⟩
  cases st with
  | none =>
    have hum : unlockedMatch (dictKeys d) line = some (w, t, r) := by
      simpa only [matchOf] using hm
    exact (unlockedMatch_decomp hum).1
  | some p =>
    obtain ⟨rfl, hlm⟩ := matchOf_locked_eq hm
    exact (lockedMatch_some hlm).1

/-- C2 witness: the spec's end-to-end example — `"  - command: echo hi"`
with locked prefix `"  - "` and `command -> ansible.builtin.command`
rewrites to `"  - ansible.builtin.command: echo hi"`. -/
theorem C2_token_rewrite_witness :
    matchOf (addSelfMaps [("command", "ansible.builtin.command")]) (some "  - ".data)
        "  - command: echo hi".data =
      some ("  - ".data, "command".data, " echo hi".data) ∧
    "  - command: echo hi".data =
      "  - ".data ++ "command".data ++ ':' :: " echo hi".data ∧
    lineStep (addSelfMaps [("command", "ansible.builtin.command")]) (some "  - ".data)
        "  - command: echo hi".data =
      some ("  - ansible.builtin.command: echo hi".data, some "  - ".data, '*') := by
  refine ⟨by decide, ?_, ?_⟩
  · exact (C2_token_rewrite (addSelfMaps [("command", "ansible.builtin.command")])
      (some "  - ".data) "  - command: echo hi".data "  - ".data "command".data
      " echo hi".data "ansible.builtin.command" (by decide) (by decide)).1
  · have h := (C2_token_rewrite (addSelfMaps [("command", "ansible.builtin.command")])
      (some "  - ".data) "  - command: echo hi".data "  - ".data "command".data
      " echo hi".data "ansible.builtin.command" (by decide) (by decide)).2.1
    exact h.trans (by decide)

/-- C3 counterexample: idempotence fails for some self-mapped maps.  With
the cache `{foo: q.r.e, bar: q.r}` (post-processed), the first run rewrites
`"  bar:e: x"` to `"  q.r:e: x"`; on the second run the unescaped key
`q.r.e` wildcard-matches ACROSS the colon (its second dot matching `':'`),
capturing the non-key text `q.r:e`, and the dict access raises KeyError:
the second application crashes instead of returning the output unchanged. -/
theorem C3_idempotence_counterexample :
    runFile (addSelfMaps [("foo", "q.r.e"), ("bar", "q.r")]) ["  bar:e: x".data] =
      some (["  q.r:e: x".data], ['*'], some "  ".data) ∧
    runFile (addSelfMaps [("foo", "q.r.e"), ("bar", "q.r")]) ["  q.r:e: x".data] =
      none :=
  ⟨by decide, by decide⟩

/-- C3 amended: the rewriter is idempotent for every self-mapped map whose
keys are well formed (nonempty, colon-free, not starting with whitespace,
dash or dot) and in which no key's unescaped pattern can extend a value
across the following colon (no dot-wildcard at a value's colon position):
when a first application of the per-file loop succeeds, a second
application run on its output returns that output unchanged, with the same
final lock state. -/
theorem C3_idempotence_amended (d0 : FqcnDict)
    (hkeys : ∀ k ∈ dictKeys (addSelfMaps d0), goodKeyB k = true)
    (hcr : ∀ k ∈ dictKeys (addSelfMaps d0), ∀ v ∈ dictValues (addSelfMaps d0),
      crossColonB k v = false)
    (lines outs : List (List Char)) (syms : List Char) (st : Option (List Char))
    (h : runFile (addSelfMaps d0) lines = some (outs, syms, st)) :
    ∃ syms2, runFile (addSelfMaps d0) outs = some (outs, syms2, st) :=
  foldLines_idem hkeys (fun _ _ hkv => addSelfMaps_selfmap hkv) hcr lines none outs syms st h

/-- C3 witness: for the realistic `command` map the first run's output is a
fixed point of the second run. -/
theorem C3_idempotence_amended_witness :
    (∀ k ∈ dictKeys (addSelfMaps [("command", "ansible.builtin.command")]),
      goodKeyB k = true) ∧
    (∀ k ∈ dictKeys (addSelfMaps [("command", "ansible.builtin.command")]),
      ∀ v ∈ dictValues (addSelfMaps [("command", "ansible.builtin.command")]),
        crossColonB k v = false) ∧
    runFile (addSelfMaps [("command", "ansible.builtin.command")])
        ["- command: echo hi".data, "text".data] =
      some (["- ansible.builtin.command: echo hi".data, "text".data], ['*', '.'],
        some "- ".data) ∧
    ∃ syms2, runFile (addSelfMaps [("command", "ansible.builtin.command")])
        ["- ansible.builtin.command: echo hi".data, "text".data] =
      some (["- ansible.builtin.command: echo hi".data, "text".data], syms2,
        some "- ".data) :=
  ⟨by decide, by decide, by decide,
   C3_idempotence_amended [("command", "ansible.builtin.command")] (by decide) (by decide)
     ["- command: echo hi".data, "text".data]
     ["- ansible.builtin.command: echo hi".data, "text".data] ['*', '.']
     (some "- ".data) (by decide)⟩

/-- C4: after the self-mapping post-processing (lines 176-177), every value
present in the resulting map is also a key of it mapping to itself. -/
theorem C4_self_mapping (d : FqcnDict) (v : String)
    (hv : v ∈ dictValues (addSelfMaps d)) :
    pyLookup (addSelfMaps d) v = some v :=
  addSelfMaps_lookup_value (addSelfMaps_values_sub hv)

/-- C4 witness: loading a cache `{foo: ns.coll.foo}` yields a map holding
both `foo -> ns.coll.foo` and `ns.coll.foo -> ns.coll.foo`, and the line
`"- ns.coll.foo:"` is matched with no visible text change. -/
theorem C4_self_mapping_witness :
    "ns.coll.foo" ∈ dictValues (addSelfMaps [("foo", "ns.coll.foo")]) ∧
    pyLookup (addSelfMaps [("foo", "ns.coll.foo")]) "ns.coll.foo" = some "ns.coll.foo" ∧
    addSelfMaps [("foo", "ns.coll.foo")] =
      [("foo", "ns.coll.foo"), ("ns.coll.foo", "ns.coll.foo")] ∧
    pyLookup (addSelfMaps [("foo", "ns.coll.foo")]) "foo" = some "ns.coll.foo" ∧
    matchOf (addSelfMaps [("foo", "ns.coll.foo")]) none "- ns.coll.foo:".data =
      some ("- ".data, "ns.coll.foo".data, []) ∧
    lineStep (addSelfMaps [("foo", "ns.coll.foo")]) none "- ns.coll.foo:".data =
      some ("- ns.coll.foo:".data, some "- ".data, '.') :=
  ⟨by decide,
   C4_self_mapping [("foo", "ns.coll.foo")] "ns.coll.foo" (by decide),
   by decide, by decide, by decide, by decide⟩

/-- C6 counterexample: the claim says a matched line whose key already
equals its mapped value emits the "rewritten or already qualified" symbol,
distinct from the "no change" symbol.  The code prints `'.'` for such a
line (line 241) — the very symbol printed for lines that do not match at
all (line 245); only an actually rewritten token is reported `'*'`. -/
theorem C6_symbol_counterexample :
    matchOf (addSelfMaps [("foo", "ns.coll.foo")]) none "- ns.coll.foo: x".data =
      some ("- ".data, "ns.coll.foo".data, " x".data) ∧
    lineStep (addSelfMaps [("foo", "ns.coll.foo")]) none "- ns.coll.foo: x".data =
      some ("- ns.coll.foo: x".data, some "- ".data, '.') ∧
    lineStep (addSelfMaps [("foo", "ns.coll.foo")]) none "plain text".data =
      some ("plain text".data, none, '.') :=
  ⟨by decide, by decide, by decide⟩

/-- C6 amended: a matched line is reported `'*'` exactly when its token
text differs from the mapped value (an actual rewrite); a matched line
whose token already equals its value is reported `'.'`, the same symbol as
a line that does not match at all. -/
theorem C6_symbol_amended (d : FqcnDict) (st : Option (List Char))
    (line w t r : List Char) (v : String)
    (hm : matchOf d st line = some (w, t, r))
    (hv : pyLookup d (String.mk t) = some v) :
    (t ≠ v.data → lineStep d st line = some (w ++ v.data ++ ':' :: r, some w, '*')) ∧
    (t = v.data → lineStep d st line = some (w ++ v.data ++ ':' :: r, some w, '.')) ∧
    ∀ st3 l3, matchOf d st3 l3 = none → lineStep d st3 l3 = some (l3, st3, '.') := by
  refine ⟨?_, ?_, fun st3 l3 h3 => lineStep_no_match h3⟩
  · intro hne
    rw [lineStep_match hm hv, if_neg hne]
  · intro heq
    rw [lineStep_match hm hv, if_pos heq]

/-- C6 witness: an already-qualified matched line gets `'.'` and a
genuinely rewritten line gets `'*'`. -/
theorem C6_symbol_amended_witness :
    matchOf (addSelfMaps [("foo", "ns.coll.foo")]) none "- foo: x".data =
      some ("- ".data, "foo".data, " x".data) ∧
    pyLookup (addSelfMaps [("foo", "ns.coll.foo")]) (String.mk "foo".data) =
      some "ns.coll.foo" ∧
    "foo".data ≠ "ns.coll.foo".data ∧
    lineStep (addSelfMaps [("foo", "ns.coll.foo")]) none "- foo: x".data =
      some ("- ".data ++ "ns.coll.foo".data ++ ':' :: " x".data, some "- ".data, '*') :=
  ⟨by decide, by decide, by decide,
   (C6_symbol_amended (addSelfMaps [("foo", "ns.coll.foo")]) none "- foo: x".data
     "- ".data "foo".data " x".data "ns.coll.foo" (by decide) (by decide)).1 (by decide)⟩

/-- C10 counterexample: the claim says such a line is "matched and
rewritten to that key's mapped value".  Matched it is — with the map built
from `{foo: ns.coll.foo}`, the non-key token `ns.collXfoo` is matched
because the dots of the interpolated key `ns.coll.foo` act as wildcards —
but it is NOT rewritten: the captured text is looked up in the dict
(line 237) and is not a key, so the access raises KeyError and the run
aborts. -/
theorem C10_dot_wildcard_counterexample :
    matchOf (addSelfMaps [("foo", "ns.coll.foo")]) none "- ns.collXfoo: x".data =
      some ("- ".data, "ns.collXfoo".data, " x".data) ∧
    "ns.collXfoo" ∉ dictKeys (addSelfMaps [("foo", "ns.coll.foo")]) ∧
    lineStep (addSelfMaps [("foo", "ns.coll.foo")]) none "- ns.collXfoo: x".data =
      none :=
  ⟨by decide, by decide, by decide⟩

/-- C10 amended: keys are interpolated unescaped, so a dot matches any
character and a line whose leading token is not a key can be matched (the
captured text dot-matches some key); but whenever the captured text is not
itself a key, the line step aborts with a failed lookup (KeyError) instead
of rewriting the line. -/
theorem C10_dot_wildcard_amended (d : FqcnDict) (st : Option (List Char))
    (line w t r : List Char) (hm : matchOf d st line = some (w, t, r))
    (hnk : pyLookup d (String.mk t) = none) :
    lineStep d st line = none ∧ String.mk t ∉ dictKeys d ∧
      ∃ k ∈ dictKeys d, dotMatch k.data t = true := by
  refine ⟨lineStep_keyerror hm hnk, lookup_none_nokey hnk, ?_⟩
  cases st with
  | none =>
    have hum : unlockedMatch (dictKeys d) line = some (w, t, r) := by
      simpa only [matchOf] using hm
    exact (unlockedMatch_decomp hum).2.2.1
  | some p =>
    obtain ⟨rfl, hlm⟩ := matchOf_locked_eq hm
    exact (lockedMatch_some hlm).2

/-- C10 witness: at the wildcard-matched line the step aborts. -/
theorem C10_dot_wildcard_amended_witness :
    matchOf (addSelfMaps [("foo", "ns.coll.foo")]) none "- ns.collXfoo: y".data =
      some ("- ".data, "ns.collXfoo".data, " y".data) ∧
    pyLookup (addSelfMaps [("foo", "ns.coll.foo")]) (String.mk "ns.collXfoo".data) =
      none ∧
    lineStep (addSelfMaps [("foo", "ns.coll.foo")]) none "- ns.collXfoo: y".data = none :=
  ⟨by decide, by decide,
   (C10_dot_wildcard_amended (addSelfMaps [("foo", "ns.coll.foo")]) none
     "- ns.collXfoo: y".data "- ".data "ns.collXfoo".data " y".data
     (by decide) (by decide)).1⟩

end FqcnFixer
